import Mathlib

/-!
Verification of the knowsql command protocol and connection-dispatch engine.

Source of the embedding:
- src/crates/knowsql_parser/src/lib.rs  — the nom-based line parser
  (`parse_command` and its sub-parsers, built from `tag`, `tag_no_case`,
  `alphanumeric1`, `separated_pair`, `separated_list1`, `alt`);
- src/knowsql/src/main.rs               — the per-connection session loop
  `handle_client`, which reads one line, parses it, dispatches the parsed
  command against the shared `BitCask` store and writes one reply line.

Strings are embedded as `List Char`.  The nom character class
`alphanumeric1` accepts exactly ASCII letters and digits
(nom's `AsChar::is_alphanum`), and `tag_no_case` folds case; for the
ASCII-only patterns used here this is ASCII case folding.
-/

namespace KnowSql

/-- Characters of the protocol are Unicode scalars; lines are char lists. -/
abbrev Str := List Char

/-- nom `AsChar::is_alphanum` for `char`: ASCII letters and digits only. -/
def isAlnum (c : Char) : Bool :=
  (65 ≤ c.toNat && c.toNat ≤ 90) || (97 ≤ c.toNat && c.toNat ≤ 122) ||
    (48 ≤ c.toNat && c.toNat ≤ 57)

/-- ASCII lower-casing of one character, as used by nom's `tag_no_case`
comparison on the ASCII keywords of this grammar. -/
def lowerChar (c : Char) : Char :=
  if 65 ≤ c.toNat ∧ c.toNat ≤ 90 then Char.ofNat (c.toNat + 32) else c

/-- nom `tag(t)`: the input must start with `t` literally; returns the rest. -/
def tagP : Str → Str → Option Str
  | [], s => some s
  | _ :: _, [] => none
  | c :: t, x :: s => if x = c then tagP t s else none

/-- nom `tag_no_case(t)`: like `tagP` but comparing case-insensitively. -/
def tagNoCase : Str → Str → Option Str
  | [], s => some s
  | _ :: _, [] => none
  | c :: t, x :: s => if lowerChar x = lowerChar c then tagNoCase t s else none

/-- Longest prefix of characters satisfying `p`, with the remainder. -/
def span (p : Char → Bool) : Str → Str × Str
  | [] => ([], [])
  | c :: s =>
    if p c then
      let r := span p s
      (c :: r.1, r.2)
    else ([], c :: s)

/-- nom `alphanumeric1` (complete): one or more ASCII alphanumeric
characters; fails if it can take none.  Returns (remaining, matched). -/
def alphanumeric1 (s : Str) : Option (Str × Str) :=
  match span isAlnum s with
  | ([], _) => none
  | (c :: tok, rest) => some (rest, c :: tok)

/-- `KeyValue` of knowsql_parser. -/
structure KeyValue where
  key : Str
  value : Str
deriving DecidableEq

/-- `Command` of knowsql_parser. -/
inductive Command where
  | Get (key : Str)
  | Set (kv : KeyValue)
  | MSet (kvs : List KeyValue)
  | Increment (key : Str)
  | List
  | Exit
deriving DecidableEq

/-- The keyword literals of the grammar (lower case). -/
def getLit : Str := ['g', 'e', 't']

def setLit : Str := ['s', 'e', 't']

def msetLit : Str := ['m', 's', 'e', 't']

def incrLit : Str := ['i', 'n', 'c', 'r']

def listLit : Str := ['l', 'i', 's', 't']

def exitLit : Str := ['e', 'x', 'i', 't']

/-- `parse_key`: `alphanumeric1`. -/
def parse_key (s : Str) : Option (Str × Str) := alphanumeric1 s

/-- `parse_value`: `alphanumeric1`. -/
def parse_value (s : Str) : Option (Str × Str) := alphanumeric1 s

/-- `parse_get`: `tag_no_case("get ")` then one key. -/
def parse_get (s : Str) : Option (Str × Command) :=
  match tagNoCase (getLit ++ [' ']) s with
  | none => none
  | some r =>
    match parse_key r with
    | none => none
    | some (r2, key) => some (r2, Command.Get key)

/-- `parse_set`: `tag_no_case("set ")`, key, `tag(" ")`, value. -/
def parse_set (s : Str) : Option (Str × Command) :=
  match tagNoCase (setLit ++ [' ']) s with
  | none => none
  | some r =>
    match parse_key r with
    | none => none
    | some (r2, key) =>
      match tagP [' '] r2 with
      | none => none
      | some r3 =>
        match parse_value r3 with
        | none => none
        | some (r4, value) => some (r4, Command.Set ⟨key, value⟩)

/-- `separated_pair(parse_key, tag(" "), parse_value)`. -/
def sepPair (s : Str) : Option (Str × (Str × Str)) :=
  match parse_key s with
  | none => none
  | some (r, k) =>
    match tagP [' '] r with
    | none => none
    | some r2 =>
      match parse_value r2 with
      | none => none
      | some (r3, v) => some (r3, (k, v))

/-- The loop of nom `separated_list1(tag(" "), separated_pair(..))` after its
first element: repeatedly try separator then element, backtracking the
separator when the element fails.  Structured with explicit fuel; each
successful iteration consumes at least one character, so fuel equal to the
input length is never exhausted. -/
def sepListLoop : Nat → Str → Str × List (Str × Str)
  | 0, s => (s, [])
  | fuel + 1, s =>
    match tagP [' '] s with
    | none => (s, [])
    | some r =>
      match sepPair r with
      | none => (s, [])
      | some (r2, p) =>
        let t := sepListLoop fuel r2
        (t.1, p :: t.2)

/-- `parse_mset`: `tag_no_case("mset ")` then
`separated_list1(tag(" "), separated_pair(parse_key, tag(" "), parse_value))`,
collected into `KeyValue` records. -/
def parse_mset (s : Str) : Option (Str × Command) :=
  match tagNoCase (msetLit ++ [' ']) s with
  | none => none
  | some r =>
    match sepPair r with
    | none => none
    | some (r1, p) =>
      let t := sepListLoop r1.length r1
      some (t.1, Command.MSet ((p :: t.2).map (fun q => ⟨q.1, q.2⟩)))

/-- `parse_increment`: `tag_no_case("incr ")` then one key. -/
def parse_increment (s : Str) : Option (Str × Command) :=
  match tagNoCase (incrLit ++ [' ']) s with
  | none => none
  | some r =>
    match parse_key r with
    | none => none
    | some (r2, key) => some (r2, Command.Increment key)

/-- `parse_list`: `tag_no_case("list")`. -/
def parse_list (s : Str) : Option (Str × Command) :=
  match tagNoCase listLit s with
  | none => none
  | some r => some (r, Command.List)

/-- `parse_exit`: `tag_no_case("exit")`. -/
def parse_exit (s : Str) : Option (Str × Command) :=
  match tagNoCase exitLit s with
  | none => none
  | some r => some (r, Command.Exit)

/-- nom `alt`: the six sub-parsers in source order, first success wins. -/
def altCommand (s : Str) : Option (Str × Command) :=
  match parse_get s with
  | some r => some r
  | none =>
    match parse_set s with
    | some r => some r
    | none =>
      match parse_mset s with
      | some r => some r
      | none =>
        match parse_increment s with
        | some r => some r
        | none =>
          match parse_list s with
          | some r => some r
          | none => parse_exit s

/-- `parse_command`: run the alternation and discard the unconsumed
remainder (`Ok((_, command)) => Some(command)`). -/
def parse_command (s : Str) : Option Command :=
  match altCommand s with
  | some (_, c) => some c
  | none => none

/-! ## Machine integers and decimal strings

`handle_client` parses the stored value with `value.parse::<isize>()` and
prints with `(current_value + 1).to_string()`.  `isize` is modelled as a
64-bit signed integer: an `Int` together with an explicit range check on
parsing and two's-complement wrap-around on the addition (the release-build
behavior; a debug build would abort the session thread instead — under
either build the reply promised by the spec at `isize::MAX` is not sent). -/

/-- Lower bound of 64-bit `isize`. -/
def minIsize : Int := -9223372036854775808

/-- Upper bound of 64-bit `isize`. -/
def maxIsize : Int := 9223372036854775807

/-- Two's-complement wrap-around of 64-bit signed addition results. -/
def wrap64 (i : Int) : Int :=
  (i + 9223372036854775808) % 18446744073709551616 - 9223372036854775808

/-- Is `c` an ASCII decimal digit. -/
def isDigit (c : Char) : Bool := 48 ≤ c.toNat && c.toNat ≤ 57

/-- Numeric value of an ASCII digit character. -/
def digitToNat (c : Char) : Nat := c.toNat - 48

/-- Value of a big-endian ASCII digit string. -/
def digitsVal (s : Str) : Nat := s.foldl (fun a c => 10 * a + digitToNat c) 0

/-- One or more ASCII digits, no other characters, as in Rust integer
parsing after the optional sign. -/
def parseNatDigits (s : Str) : Option Nat :=
  if s ≠ [] ∧ ∀ c ∈ s, isDigit c = true then some (digitsVal s) else none

/-- The `isize` range check of Rust's `str::parse::<isize>`. -/
def rangeCheck (i : Int) : Option Int :=
  if minIsize ≤ i ∧ i ≤ maxIsize then some i else none

/-- Rust `value.parse::<isize>()`: optional single `+`/`-` sign, one or more
ASCII digits, value within the 64-bit signed range. -/
def parseIsize (s : Str) : Option Int :=
  match s with
  | [] => none
  | c :: rest =>
    if c = '+' then
      match parseNatDigits rest with
      | none => none
      | some n => rangeCheck (n : Int)
    else if c = '-' then
      match parseNatDigits rest with
      | none => none
      | some n => rangeCheck (-(n : Int))
    else
      match parseNatDigits s with
      | none => none
      | some n => rangeCheck (n : Int)

/-- ASCII digit character of a value below ten. -/
def digitChar : Nat → Char
  | 0 => '0'
  | 1 => '1'
  | 2 => '2'
  | 3 => '3'
  | 4 => '4'
  | 5 => '5'
  | 6 => '6'
  | 7 => '7'
  | 8 => '8'
  | 9 => '9'
  | _ => '*'

/-- Big-endian decimal digits of a natural number, with explicit recursion
fuel; `fuel` bounds the digit count, so 20 covers every 64-bit value. -/
def natToCharsAux : Nat → Nat → Str
  | 0, _ => []
  | fuel + 1, n =>
    if n < 10 then [digitChar n] else natToCharsAux fuel (n / 10) ++ [digitChar (n % 10)]

/-- Rust `isize::to_string` for values in the 64-bit range: minus sign for
negatives, then the decimal digits. -/
def intToStr (i : Int) : Str :=
  if i < 0 then '-' :: natToCharsAux 20 (-i).toNat else natToCharsAux 20 i.toNat

/-! ## The store facade and the session dispatch

The storage engine (`knowsql_bitcask`) is not under `src/`; the spec treats
it as an external collaborator exposing `get`, `put` and `list_keys`. -/

/-- Modelled from the spec: the external `BitCask` store handle — "one
logical key-value map", with `get(key) -> Option<Value>`,
`put(key, value) -> Ok | Error` and `list_keys() -> Sequence<Key>`.  The map
is an association list; which writes fail is the collaborator's business and
is represented by the oracle `putFail`. -/
structure BitCask where
  data : List (Str × Str)
  putFail : Str → Str → Bool

/-- Association-list lookup (first binding wins). -/
def lookupStr (k : Str) : List (Str × Str) → Option Str
  | [] => none
  | p :: ps => if p.1 = k then some p.2 else lookupStr k ps

/-- Association-list update: bind `k` to `v`, dropping any old binding. -/
def mapPut (k v : Str) (m : List (Str × Str)) : List (Str × Str) :=
  (k, v) :: m.filter (fun p => decide (p.1 ≠ k))

/-- Modelled from the spec: `get(key) -> Option<Value>` of the collaborator. -/
def bcGet (cask : BitCask) (k : Str) : Option Str := lookupStr k cask.data

/-- Modelled from the spec: `put(key, value) -> Ok | Error` of the
collaborator; `none` is the error outcome, on which the map is unchanged. -/
def bcPut (cask : BitCask) (k v : Str) : Option BitCask :=
  if cask.putFail k v then none else some { cask with data := mapPut k v cask.data }

/-- Modelled from the spec: `list_keys() -> Sequence<Key>` of the
collaborator. -/
def list_keys (cask : BitCask) : List Str := cask.data.map Prod.fst

/-- `Vec::join(" ")` used for the `List` reply. -/
def joinSpace : List Str → Str
  | [] => []
  | [x] => x
  | x :: y :: xs => x ++ ' ' :: joinSpace (y :: xs)

/-- The reply sentinels written by `handle_client` (without the trailing
newline byte, which every write appends uniformly). -/
def strOK : Str := ['O', 'K']

def strERR : Str := ['E', 'R', 'R']

def strNIL : Str := ['N', 'I', 'L']

def strINV : Str := ['I', 'N', 'V']

def strBYE : Str := ['B', 'Y', 'E']

def strZero : Str := ['0']

/-- Outcome of handling one line: the store afterwards, the reply lines
written (each followed by a newline on the wire), and whether the session
loop breaks (`Command::Exit`). -/
structure StepResult where
  cask : BitCask
  out : List Str
  closed : Bool

/-- The dispatch `match command { .. }` of `handle_client`, one parsed
command against the locked store.  `none` models a panic of the session
thread via `.unwrap()` (the `put` inside the `Increment` arm is unwrapped).
The source `match` has no arm for `Command::MSet` — the spec records this as
a latent defect of the reference dispatch ("no defined handling for this
variant"); it is modelled as the spec reads it: the command is silently
dropped, with no store call and no reply. -/
def dispatch (cask : BitCask) : Command → Option StepResult
  | Command.Get key =>
    match bcGet cask key with
    | some value => some ⟨cask, [value], false⟩
    | none => some ⟨cask, [strNIL], false⟩
  | Command.Set kv =>
    match bcPut cask kv.key kv.value with
    | some cask2 => some ⟨cask2, [strOK], false⟩
    | none => some ⟨cask, [strERR], false⟩
  | Command.MSet _ => some ⟨cask, [], false⟩
  | Command.List => some ⟨cask, [joinSpace (list_keys cask)], false⟩
  | Command.Exit => some ⟨cask, [strBYE], true⟩
  | Command.Increment key =>
    let value := (bcGet cask key).getD strZero
    match parseIsize value with
    | some cur =>
      let nv := intToStr (wrap64 (cur + 1))
      match bcPut cask key nv with
      | some cask2 => some ⟨cask2, [nv], false⟩
      | none => none
    | none => some ⟨cask, [strERR], false⟩

/-- One iteration of the `handle_client` loop body on the buffer that
`read_line` produced: parse, then dispatch, or reply `INV` when parsing
fails.  A zero-byte read (peer closed) leaves the buffer empty, so it
arrives here as `[]`. -/
def handleLine (cask : BitCask) (line : Str) : Option StepResult :=
  match parse_command line with
  | some c => dispatch cask c
  | none => some ⟨cask, [strINV], false⟩

/-! ## The grammar as the spec states it

The following definitions transcribe §4.1 of the spec, for comparison with
the parser above: a token is one or more alphanumeric characters, keywords
match case-insensitively, arguments are case-sensitive, tokens are separated
by single spaces, and a form spans the whole line. -/

/-- A token of the spec grammar: one or more alphanumeric characters. -/
def isToken (s : Str) : Prop := s ≠ [] ∧ ∀ c ∈ s, isAlnum c = true

instance (s : Str) : Decidable (isToken s) := by
  unfold isToken
  infer_instance

/-- `kw` is a case variant of the (lower-case) keyword `lit`. -/
def kwMatch (kw lit : Str) : Prop := kw.map lowerChar = lit

instance (kw lit : Str) : Decidable (kwMatch kw lit) := by
  unfold kwMatch
  infer_instance

/-- One `key value` chunk of an `mset` argument list. -/
def pairChunk (p : Str × Str) : Str := p.1 ++ ' ' :: p.2

/-- The rest of an `mset` argument list: a space before each further pair. -/
def sepTail (ps : List (Str × Str)) : Str := ps.flatMap (fun p => ' ' :: pairChunk p)

/-- Space-separated `key value` pairs, as the `MSET` arguments of §4.1. -/
def joinPairs : List (Str × Str) → Str
  | [] => []
  | p :: ps => pairChunk p ++ sepTail ps

/-- All pairs in an `mset` argument list are (token, token) pairs. -/
def tokenPairs (ps : List (Str × Str)) : Prop :=
  ∀ p ∈ ps, isToken p.1 ∧ isToken p.2

instance (ps : List (Str × Str)) : Decidable (tokenPairs ps) := by
  unfold tokenPairs
  infer_instance

/-- The six complete grammar forms of §4.1 and the command each denotes:
keyword case-insensitive, arguments case-sensitive, single-space separated,
nothing before or after. -/
inductive SpecForm : Str → Command → Prop
  | get (kw k : Str) : kwMatch kw getLit → isToken k →
      SpecForm (kw ++ ' ' :: k) (Command.Get k)
  | set (kw k v : Str) : kwMatch kw setLit → isToken k → isToken v →
      SpecForm (kw ++ ' ' :: (k ++ ' ' :: v)) (Command.Set ⟨k, v⟩)
  | mset (kw : Str) (ps : List (Str × Str)) : kwMatch kw msetLit → ps ≠ [] →
      tokenPairs ps →
      SpecForm (kw ++ ' ' :: joinPairs ps) (Command.MSet (ps.map (fun p => ⟨p.1, p.2⟩)))
  | increment (kw k : Str) : kwMatch kw incrLit → isToken k →
      SpecForm (kw ++ ' ' :: k) (Command.Increment k)
  | list (kw : Str) : kwMatch kw listLit → SpecForm kw Command.List
  | exit (kw : Str) : kwMatch kw exitLit → SpecForm kw Command.Exit

/-- The line matches none of the six grammar forms of §4.1. -/
def matchesNoForm (l : Str) : Prop := ∀ c, ¬ SpecForm l c

/-- The trailing content starts at a hard token boundary: it is empty or
begins with a character that is neither alphanumeric nor a space (such as
the `\n` that `read_line` leaves in the buffer). -/
def headSafe : Str → Prop
  | [] => True
  | c :: _ => isAlnum c = false ∧ c ≠ ' '

instance (s : Str) : Decidable (headSafe s) := by
  cases s with
  | nil => exact isTrue trivial
  | cons c t => exact (instDecidableAnd : Decidable (isAlnum c = false ∧ c ≠ ' '))

/-- The string is empty or starts with a non-alphanumeric character, so a
token match cannot extend into it. -/
def headNA : Str → Prop
  | [] => True
  | c :: _ => isAlnum c = false

/-! ## The concurrent `Increment` critical section

In `handle_client` the `Increment` arm first takes the store lock
(`let mut cask = bitcask.lock().unwrap()`) and keeps the guard alive across
the `get`, the `put` and the reply write; the guard drops (releasing the
lock) at the end of the arm.  The model below embeds `n` sessions that each
execute this arm once for the same key, as an interleaving of micro-steps:
acquire the lock, read the cell, write back and reply, release.  Mutual
exclusion is not assumed for the read and write steps — it must follow from
the acquire/release discipline alone.  The store is projected to the one
cell all `n` sessions touch; its writes are taken as succeeding (a failing
write aborts a session instead, see the error-path theorems). -/

/-- Control state of one session thread running the `Increment` arm. -/
inductive IncThread where
  | start
  | locked
  | got (old : Int)
  | wrote
  | failed
  | done
deriving DecidableEq

/-- Global configuration: the lock owner, the stored cell for the shared
key, the control state of each of the `n` session threads, and the replies
written so far in wire order. -/
structure CState (n : Nat) where
  lock : Option (Fin n)
  cell : Option Str
  ts : Fin n → IncThread
  log : List Str

/-- Thread `i` holds or wants the store guard (it is inside the arm). -/
def inCS : IncThread → Prop
  | IncThread.start => False
  | IncThread.done => False
  | _ => True

/-- The thread has completed its store write. -/
def isWrOrDone : IncThread → Bool
  | IncThread.wrote => true
  | IncThread.done => true
  | _ => false

/-- Number of threads whose write has completed. -/
def countWrote {n : Nat} (ts : Fin n → IncThread) : Nat :=
  (Finset.univ.filter (fun i => isWrOrDone (ts i) = true)).card

/-- Interleaving semantics of `n` sessions each running the `Increment` arm
on the same key.  `acquire` needs the lock free; `read` performs
`cask.get(&key).unwrap_or("0")` then `parse::<isize>`; `write` performs the
`put` of the incremented value and the reply write; `readFail` is the
non-integer branch replying `ERR`; `release` drops the guard at the end of
the arm.  Only `acquire` inspects the lock: that the read-modify-write pair
of a thread is never interleaved with another thread's accesses has to be a
consequence of the discipline, not an assumption. -/
inductive IncStep {n : Nat} : CState n → CState n → Prop
  | acquire (c : CState n) (i : Fin n) :
      c.ts i = IncThread.start → c.lock = none →
      IncStep c { c with lock := some i, ts := Function.update c.ts i IncThread.locked }
  | read (c : CState n) (i : Fin n) (old : Int) :
      c.ts i = IncThread.locked →
      parseIsize (c.cell.getD strZero) = some old →
      IncStep c { c with ts := Function.update c.ts i (IncThread.got old) }
  | readFail (c : CState n) (i : Fin n) :
      c.ts i = IncThread.locked →
      parseIsize (c.cell.getD strZero) = none →
      IncStep c { c with ts := Function.update c.ts i IncThread.failed,
                         log := c.log ++ [strERR] }
  | write (c : CState n) (i : Fin n) (old : Int) :
      c.ts i = IncThread.got old →
      IncStep c { c with cell := some (intToStr (wrap64 (old + 1))),
                         ts := Function.update c.ts i IncThread.wrote,
                         log := c.log ++ [intToStr (wrap64 (old + 1))] }
  | release (c : CState n) (i : Fin n) :
      c.ts i = IncThread.wrote ∨ c.ts i = IncThread.failed →
      IncStep c { c with lock := none, ts := Function.update c.ts i IncThread.done }

/-- Initial configuration: lock free, key absent, all sessions about to
execute the arm, nothing written. -/
def initC (n : Nat) : CState n :=
  { lock := none, cell := none, ts := fun _ => IncThread.start, log := [] }

/-- Inductive invariant of the interleaving semantics: the lock names
exactly the thread inside the arm; a thread that has read holds the current
count; the log and the cell reflect the number of completed writes; the
non-integer branch is never taken. -/
def IncInv {n : Nat} (c : CState n) : Prop :=
  (∀ i, inCS (c.ts i) → c.lock = some i) ∧
  (∀ i old, c.ts i = IncThread.got old → old = (countWrote c.ts : Int)) ∧
  (c.log = (List.range (countWrote c.ts)).map (fun j : Nat => intToStr ((j : Int) + 1))) ∧
  (c.cell = if countWrote c.ts = 0 then none
            else some (intToStr (countWrote c.ts : Int))) ∧
  (∀ i, c.ts i ≠ IncThread.failed)

/-! ## Concrete objects used by witnesses and counterexamples -/

/-- An empty store whose writes succeed. -/
def okCask : BitCask := ⟨[], fun _ _ => false⟩

/-- An empty store whose writes all fail (the collaborator reports errors). -/
def failCask : BitCask := ⟨[], fun _ _ => true⟩

/-- A store holding `isize::MAX` (as its decimal string) under key `k`,
with succeeding writes. -/
def maxCask : BitCask := ⟨[(['k'], natToCharsAux 20 9223372036854775807)], fun _ _ => false⟩

/-- The line `listX`. -/
def lineListX : Str := ['l', 'i', 's', 't', 'X']

/-- The buffer `get key\n` as `read_line` delivers it. -/
def lineGetKeyNL : Str := ['g', 'e', 't', ' ', 'k', 'e', 'y', '\n']

/-- The line `mset a b c` (odd argument count). -/
def lineMsetOdd : Str := ['m', 's', 'e', 't', ' ', 'a', ' ', 'b', ' ', 'c']

/-- The line `mset a 1` (one well-formed pair). -/
def lineMsetPair : Str := ['m', 's', 'e', 't', ' ', 'a', ' ', '1']

/-- The line `blah`. -/
def lineBlah : Str := ['b', 'l', 'a', 'h']

/-- The line `get k`. -/
def lineGetK : Str := ['g', 'e', 't', ' ', 'k']

/-- Four-step execution of one `Increment` session, used as the witness
trace: acquire, read, write, release. -/
def cw0 : CState 1 := initC 1

def cw1 : CState 1 :=
  { cw0 with lock := some 0, ts := Function.update cw0.ts 0 IncThread.locked }

def cw2 : CState 1 := { cw1 with ts := Function.update cw1.ts 0 (IncThread.got 0) }

def cw3 : CState 1 :=
  { cw2 with cell := some (intToStr (wrap64 (0 + 1))),
             ts := Function.update cw2.ts 0 IncThread.wrote,
             log := cw2.log ++ [intToStr (wrap64 (0 + 1))] }

def cw4 : CState 1 :=
  { cw3 with lock := none, ts := Function.update cw3.ts 0 IncThread.done }

/-! ## Character and combinator lemmas -/

theorem lowerChar_toNat (c : Char) :
    (lowerChar c).toNat = if 65 ≤ c.toNat ∧ c.toNat ≤ 90 then c.toNat + 32 else c.toNat := by
  unfold lowerChar
  split
  · next h =>
    have hv : Nat.isValidChar (c.toNat + 32) := by left; omega
    rw [Char.ofNat, dif_pos hv]
    rfl
  · rfl

theorem isAlnum_lowerChar (c : Char) : isAlnum (lowerChar c) = true ↔ isAlnum c = true := by
  simp only [isAlnum, Bool.or_eq_true, Bool.and_eq_true, decide_eq_true_eq, lowerChar_toNat]
  split <;> omega

theorem headSafe_headNA {s : Str} (h : headSafe s) : headNA s := by
  cases s with
  | nil => trivial
  | cons c t => exact h.1

theorem tagNoCase_matches :
    ∀ (pat s : Str), s.map lowerChar = pat.map lowerChar →
      ∀ r : Str, tagNoCase pat (s ++ r) = some r := by
  intro pat
  induction pat with
  | nil =>
    intro s hs r
    have : s = [] := by
      cases s with
      | nil => rfl
      | cons c t => simp at hs
    subst this
    rfl
  | cons p pt ih =>
    intro s hs r
    cases s with
    | nil => simp at hs
    | cons c ct =>
      simp only [List.map_cons, List.cons.injEq] at hs
      simpa [tagNoCase, hs.1] using ih ct hs.2 r

theorem tagNoCase_head_ne {p x : Char} (pt s : Str) (h : lowerChar x ≠ lowerChar p) :
    tagNoCase (p :: pt) (x :: s) = none := by
  simp [tagNoCase, h]

theorem span_token :
    ∀ (tok rest : Str), (∀ c ∈ tok, isAlnum c = true) → headNA rest →
      span isAlnum (tok ++ rest) = (tok, rest) := by
  intro tok
  induction tok with
  | nil =>
    intro rest _ hr
    cases rest with
    | nil => rfl
    | cons c t =>
      have hr' : isAlnum c = false := hr
      simp [span, hr']
  | cons c ct ih =>
    intro rest htok hr
    have hc : isAlnum c = true := htok c (List.mem_cons_self c ct)
    have := ih rest (fun d hd => htok d (List.mem_cons_of_mem c hd)) hr
    simp [span, hc, this]

theorem alphanumeric1_token {tok rest : Str} (htok : isToken tok) (hr : headNA rest) :
    alphanumeric1 (tok ++ rest) = some (rest, tok) := by
  obtain ⟨hne, hall⟩ := htok
  cases tok with
  | nil => exact absurd rfl hne
  | cons c ct =>
    unfold alphanumeric1
    rw [span_token (c :: ct) rest hall hr]

theorem sepPair_token {k v rest : Str} (hk : isToken k) (hv : isToken v) (hr : headNA rest) :
    sepPair (k ++ ' ' :: (v ++ rest)) = some (rest, (k, v)) := by
  have h1 : alphanumeric1 (k ++ ' ' :: (v ++ rest)) = some (' ' :: (v ++ rest), k) :=
    alphanumeric1_token hk (by simp [headNA, isAlnum])
  have h2 : alphanumeric1 (v ++ rest) = some (rest, v) := alphanumeric1_token hv hr
  simp [sepPair, parse_key, parse_value, h1, h2, tagP]

theorem sepListLoop_stop {rest : Str} (hr : headSafe rest) :
    ∀ fuel, sepListLoop fuel rest = (rest, []) := by
  intro fuel
  cases fuel with
  | zero => rfl
  | succ f =>
    cases rest with
    | nil => rfl
    | cons c t =>
      have hc : c ≠ ' ' := hr.2
      simp [sepListLoop, tagP, hc]

theorem sepListLoop_tail :
    ∀ (ps : List (Str × Str)) (fuel : Nat) (rest : Str),
      (sepTail ps).length ≤ fuel → tokenPairs ps → headSafe rest →
      sepListLoop fuel (sepTail ps ++ rest) = (rest, ps) := by
  intro ps
  induction ps with
  | nil =>
    intro fuel rest _ _ hr
    simpa [sepTail] using sepListLoop_stop hr fuel
  | cons p pt ih =>
    intro fuel rest hfuel htoks hr
    have hlen : 1 ≤ fuel := by
      simp [sepTail, pairChunk] at hfuel
      omega
    obtain ⟨f, rfl⟩ : ∃ f, fuel = f + 1 := ⟨fuel - 1, by omega⟩
    have hstep : sepTail (p :: pt) ++ rest =
        ' ' :: (p.1 ++ ' ' :: (p.2 ++ (sepTail pt ++ rest))) := by
      simp [sepTail, pairChunk]
    have hna : headNA (sepTail pt ++ rest) := by
      cases pt with
      | nil => simpa [sepTail] using headSafe_headNA hr
      | cons q qt => simp [sepTail, headNA, isAlnum]
    have hp := htoks p (List.mem_cons_self p pt)
    have hpair : sepPair (p.1 ++ ' ' :: (p.2 ++ (sepTail pt ++ rest))) =
        some (sepTail pt ++ rest, (p.1, p.2)) := sepPair_token hp.1 hp.2 hna
    have hrec := ih f rest (by simp [sepTail, pairChunk] at hfuel ⊢; omega)
      (fun q hq => htoks q (List.mem_cons_of_mem p hq)) hr
    rw [hstep]
    simp [sepListLoop, tagP, hpair, hrec]

theorem sepListLoop_tail_odd :
    ∀ (ps : List (Str × Str)) (fuel : Nat) (tok : Str),
      (sepTail ps).length + 1 + tok.length ≤ fuel → tokenPairs ps → isToken tok →
      sepListLoop fuel (sepTail ps ++ ' ' :: tok) = (' ' :: tok, ps) := by
  intro ps
  induction ps with
  | nil =>
    intro fuel tok hfuel htoks htok
    obtain ⟨f, rfl⟩ : ∃ f, fuel = f + 1 := ⟨fuel - 1, by omega⟩
    have h1 : alphanumeric1 (tok ++ []) = some ([], tok) :=
      alphanumeric1_token htok trivial
    simp only [List.append_nil] at h1
    simp [sepTail, sepListLoop, tagP, sepPair, parse_key, h1]
  | cons p pt ih =>
    intro fuel tok hfuel htoks htok
    obtain ⟨f, rfl⟩ : ∃ f, fuel = f + 1 :=
      ⟨fuel - 1, by simp [sepTail, pairChunk] at hfuel; omega⟩
    have hstep : sepTail (p :: pt) ++ ' ' :: tok =
        ' ' :: (p.1 ++ ' ' :: (p.2 ++ (sepTail pt ++ ' ' :: tok))) := by
      simp [sepTail, pairChunk]
    have hna : headNA (sepTail pt ++ ' ' :: tok) := by
      cases pt with
      | nil => simp [sepTail, headNA, isAlnum]
      | cons q qt => simp [sepTail, headNA, isAlnum]
    have hp := htoks p (List.mem_cons_self p pt)
    have hpair : sepPair (p.1 ++ ' ' :: (p.2 ++ (sepTail pt ++ ' ' :: tok))) =
        some (sepTail pt ++ ' ' :: tok, (p.1, p.2)) := sepPair_token hp.1 hp.2 hna
    have hrec := ih f tok (by simp [sepTail, pairChunk] at hfuel ⊢; omega)
      (fun q hq => htoks q (List.mem_cons_of_mem p hq)) htok
    rw [hstep]
    simp [sepListLoop, tagP, hpair, hrec]

/-! ## Per-parser lemmas on grammar-shaped inputs -/

theorem kwMatch_cons {kw : Str} {l0 : Char} {lt : Str} (h : kwMatch kw (l0 :: lt)) :
    ∃ c0 kt, kw = c0 :: kt ∧ lowerChar c0 = l0 ∧ kwMatch kt lt := by
  cases kw with
  | nil => simp [kwMatch] at h
  | cons c0 kt =>
    simp only [kwMatch, List.map_cons, List.cons.injEq] at h
    exact ⟨c0, kt, rfl, h.1, h.2⟩

theorem tagNoCase_kw {kw lit : Str} (hkw : kwMatch kw lit)
    (hlit : lit.map lowerChar = lit) (r : Str) :
    tagNoCase (lit ++ [' ']) (kw ++ ' ' :: r) = some r := by
  have h := tagNoCase_matches (lit ++ [' ']) (kw ++ [' '])
    (by rw [List.map_append, List.map_append, hkw, hlit]) r
  simpa using h

theorem tagNoCase_kw_bare {kw lit : Str} (hkw : kwMatch kw lit)
    (hlit : lit.map lowerChar = lit) (r : Str) :
    tagNoCase lit (kw ++ r) = some r := by
  apply tagNoCase_matches
  exact hkw.trans hlit.symm

theorem parse_get_form {kw k : Str} (hkw : kwMatch kw getLit) (hk : isToken k)
    (rest : Str) (hr : headNA rest) :
    parse_get ((kw ++ ' ' :: k) ++ rest) = some (rest, Command.Get k) := by
  have h1 := tagNoCase_kw hkw (by decide) (k ++ rest)
  have h2 := alphanumeric1_token hk hr
  simp [parse_get, h1, parse_key, h2]

theorem parse_increment_form {kw k : Str} (hkw : kwMatch kw incrLit) (hk : isToken k)
    (rest : Str) (hr : headNA rest) :
    parse_increment ((kw ++ ' ' :: k) ++ rest) = some (rest, Command.Increment k) := by
  have h1 := tagNoCase_kw hkw (by decide) (k ++ rest)
  have h2 := alphanumeric1_token hk hr
  simp [parse_increment, h1, parse_key, h2]

theorem parse_set_form {kw k v : Str} (hkw : kwMatch kw setLit) (hk : isToken k)
    (hv : isToken v) (rest : Str) (hr : headNA rest) :
    parse_set ((kw ++ ' ' :: (k ++ ' ' :: v)) ++ rest) =
      some (rest, Command.Set ⟨k, v⟩) := by
  have h1 := tagNoCase_kw hkw (by decide) (k ++ ' ' :: (v ++ rest))
  have h2 : alphanumeric1 (k ++ ' ' :: (v ++ rest)) = some (' ' :: (v ++ rest), k) :=
    alphanumeric1_token hk (by simp [headNA, isAlnum])
  have h3 := alphanumeric1_token hv hr
  simp [parse_set, h1, parse_key, parse_value, h2, tagP, h3]

theorem parse_mset_form {kw : Str} {ps : List (Str × Str)} (hkw : kwMatch kw msetLit)
    (hne : ps ≠ []) (htoks : tokenPairs ps) (rest : Str) (hr : headSafe rest) :
    parse_mset ((kw ++ ' ' :: joinPairs ps) ++ rest) =
      some (rest, Command.MSet (ps.map (fun p => ⟨p.1, p.2⟩))) := by
  obtain ⟨p, pt, rfl⟩ : ∃ p pt, ps = p :: pt := by
    cases ps with
    | nil => exact absurd rfl hne
    | cons p pt => exact ⟨p, pt, rfl⟩
  have h1 := tagNoCase_kw hkw (by decide) (p.1 ++ ' ' :: (p.2 ++ (sepTail pt ++ rest)))
  have hna : headNA (sepTail pt ++ rest) := by
    cases pt with
    | nil => simpa [sepTail] using headSafe_headNA hr
    | cons q qt => simp [sepTail, headNA, isAlnum]
  have hp := htoks p (List.mem_cons_self p pt)
  have hpair : sepPair (p.1 ++ ' ' :: (p.2 ++ (sepTail pt ++ rest))) =
      some (sepTail pt ++ rest, (p.1, p.2)) := sepPair_token hp.1 hp.2 hna
  have hloop := sepListLoop_tail pt (sepTail pt ++ rest).length rest (by simp)
    (fun q hq => htoks q (List.mem_cons_of_mem p hq)) hr
  simp only [List.length_append] at hloop
  simp [parse_mset, joinPairs, pairChunk, h1, hpair, hloop]

theorem parse_list_form {kw : Str} (hkw : kwMatch kw listLit) (rest : Str) :
    parse_list (kw ++ rest) = some (rest, Command.List) := by
  have h1 := tagNoCase_kw_bare hkw (by decide) rest
  simp [parse_list, h1]

theorem parse_exit_form {kw : Str} (hkw : kwMatch kw exitLit) (rest : Str) :
    parse_exit (kw ++ rest) = some (rest, Command.Exit) := by
  have h1 := tagNoCase_kw_bare hkw (by decide) rest
  simp [parse_exit, h1]

theorem parse_get_ne (x : Char) (s : Str) (h : lowerChar x ≠ 'g') :
    parse_get (x :: s) = none := by
  simp [parse_get, getLit, tagNoCase, show lowerChar 'g' = 'g' from by decide, h]

theorem parse_set_ne (x : Char) (s : Str) (h : lowerChar x ≠ 's') :
    parse_set (x :: s) = none := by
  simp [parse_set, setLit, tagNoCase, show lowerChar 's' = 's' from by decide, h]

theorem parse_mset_ne (x : Char) (s : Str) (h : lowerChar x ≠ 'm') :
    parse_mset (x :: s) = none := by
  simp [parse_mset, msetLit, tagNoCase, show lowerChar 'm' = 'm' from by decide, h]

theorem parse_increment_ne (x : Char) (s : Str) (h : lowerChar x ≠ 'i') :
    parse_increment (x :: s) = none := by
  simp [parse_increment, incrLit, tagNoCase, show lowerChar 'i' = 'i' from by decide, h]

theorem parse_list_ne (x : Char) (s : Str) (h : lowerChar x ≠ 'l') :
    parse_list (x :: s) = none := by
  simp [parse_list, listLit, tagNoCase, show lowerChar 'l' = 'l' from by decide, h]

theorem parse_exit_ne (x : Char) (s : Str) (h : lowerChar x ≠ 'e') :
    parse_exit (x :: s) = none := by
  simp [parse_exit, exitLit, tagNoCase, show lowerChar 'e' = 'e' from by decide, h]

/-- Main parser lemma: a line that begins with a complete grammar form and
continues with content starting at a hard token boundary parses to the
form's command — the unconsumed content is discarded by `parse_command`. -/
theorem parse_command_form_rest {l : Str} {c : Command} (hf : SpecForm l c)
    {rest : Str} (hr : headSafe rest) : parse_command (l ++ rest) = some c := by
  cases hf with
  | get kw k hkw hk =>
    have hget := parse_get_form hkw hk rest (headSafe_headNA hr)
    simp only [List.append_assoc, List.cons_append] at hget ⊢
    simp [parse_command, altCommand, hget]
  | set kw k v hkw hk hv =>
    obtain ⟨c0, kt, rfl, hc0, _⟩ := kwMatch_cons hkw
    have hg : ∀ s, parse_get (c0 :: s) = none :=
      fun s => parse_get_ne c0 s (by rw [hc0]; decide)
    have hset := parse_set_form hkw hk hv rest (headSafe_headNA hr)
    simp only [List.append_assoc, List.cons_append] at hset ⊢
    simp [parse_command, altCommand, hg, hset]
  | mset kw ps hkw hne htoks =>
    obtain ⟨c0, kt, rfl, hc0, _⟩ := kwMatch_cons hkw
    have hg : ∀ s, parse_get (c0 :: s) = none :=
      fun s => parse_get_ne c0 s (by rw [hc0]; decide)
    have hs : ∀ s, parse_set (c0 :: s) = none :=
      fun s => parse_set_ne c0 s (by rw [hc0]; decide)
    have hmset := parse_mset_form hkw hne htoks rest hr
    simp only [List.append_assoc, List.cons_append] at hmset ⊢
    simp [parse_command, altCommand, hg, hs, hmset]
  | increment kw k hkw hk =>
    obtain ⟨c0, kt, rfl, hc0, _⟩ := kwMatch_cons hkw
    have hg : ∀ s, parse_get (c0 :: s) = none :=
      fun s => parse_get_ne c0 s (by rw [hc0]; decide)
    have hs : ∀ s, parse_set (c0 :: s) = none :=
      fun s => parse_set_ne c0 s (by rw [hc0]; decide)
    have hm : ∀ s, parse_mset (c0 :: s) = none :=
      fun s => parse_mset_ne c0 s (by rw [hc0]; decide)
    have hincr := parse_increment_form hkw hk rest (headSafe_headNA hr)
    simp only [List.append_assoc, List.cons_append] at hincr ⊢
    simp [parse_command, altCommand, hg, hs, hm, hincr]
  | list kw hkw =>
    obtain ⟨c0, kt, rfl, hc0, _⟩ := kwMatch_cons hkw
    have hg : ∀ s, parse_get (c0 :: s) = none :=
      fun s => parse_get_ne c0 s (by rw [hc0]; decide)
    have hs : ∀ s, parse_set (c0 :: s) = none :=
      fun s => parse_set_ne c0 s (by rw [hc0]; decide)
    have hm : ∀ s, parse_mset (c0 :: s) = none :=
      fun s => parse_mset_ne c0 s (by rw [hc0]; decide)
    have hi : ∀ s, parse_increment (c0 :: s) = none :=
      fun s => parse_increment_ne c0 s (by rw [hc0]; decide)
    have hlist := parse_list_form hkw rest
    simp only [List.append_assoc, List.cons_append] at hlist ⊢
    simp [parse_command, altCommand, hg, hs, hm, hi, hlist]
  | exit kw hkw =>
    obtain ⟨c0, kt, rfl, hc0, _⟩ := kwMatch_cons hkw
    have hg : ∀ s, parse_get (c0 :: s) = none :=
      fun s => parse_get_ne c0 s (by rw [hc0]; decide)
    have hs : ∀ s, parse_set (c0 :: s) = none :=
      fun s => parse_set_ne c0 s (by rw [hc0]; decide)
    have hm : ∀ s, parse_mset (c0 :: s) = none :=
      fun s => parse_mset_ne c0 s (by rw [hc0]; decide)
    have hi : ∀ s, parse_increment (c0 :: s) = none :=
      fun s => parse_increment_ne c0 s (by rw [hc0]; decide)
    have hl : ∀ s, parse_list (c0 :: s) = none :=
      fun s => parse_list_ne c0 s (by rw [hc0]; decide)
    have hexit := parse_exit_form hkw rest
    simp only [List.append_assoc, List.cons_append] at hexit ⊢
    simp [parse_command, altCommand, hg, hs, hm, hi, hl, hexit]

/-- A line starting with a space fails every sub-parser. -/
theorem parse_command_space (s : Str) : parse_command (' ' :: s) = none := by
  have hg : ∀ t, parse_get (' ' :: t) = none := fun t => parse_get_ne ' ' t (by decide)
  have hs : ∀ t, parse_set (' ' :: t) = none := fun t => parse_set_ne ' ' t (by decide)
  have hm : ∀ t, parse_mset (' ' :: t) = none := fun t => parse_mset_ne ' ' t (by decide)
  have hi : ∀ t, parse_increment (' ' :: t) = none :=
    fun t => parse_increment_ne ' ' t (by decide)
  have hl : ∀ t, parse_list (' ' :: t) = none := fun t => parse_list_ne ' ' t (by decide)
  have he : ∀ t, parse_exit (' ' :: t) = none := fun t => parse_exit_ne ' ' t (by decide)
  simp [parse_command, altCommand, hg, hs, hm, hi, hl, he]

/-! ## What lines a grammar form can consist of -/

theorem kwMatch_chars {kw lit : Str} (hkw : kwMatch kw lit)
    (hlit : ∀ c ∈ lit, isAlnum c = true) : ∀ c ∈ kw, isAlnum c = true := by
  intro c hc
  have hm : lowerChar c ∈ lit := by
    rw [← hkw]
    exact List.mem_map_of_mem lowerChar hc
  exact (isAlnum_lowerChar c).mp (hlit _ hm)

theorem pairChunk_chars {p : Str × Str} (hp : isToken p.1 ∧ isToken p.2) :
    ∀ ch ∈ pairChunk p, isAlnum ch = true ∨ ch = ' ' := by
  intro ch hch
  rcases List.mem_append.mp hch with h | h
  · exact Or.inl (hp.1.2 ch h)
  · rcases List.mem_cons.mp h with h | h
    · exact Or.inr h
    · exact Or.inl (hp.2.2 ch h)

theorem sepTail_chars {ps : List (Str × Str)} (htoks : tokenPairs ps) :
    ∀ ch ∈ sepTail ps, isAlnum ch = true ∨ ch = ' ' := by
  induction ps with
  | nil => intro ch hch; simp [sepTail] at hch
  | cons p pt ih =>
    intro ch hch
    have : sepTail (p :: pt) = ' ' :: pairChunk p ++ sepTail pt := by simp [sepTail]
    rw [this] at hch
    rcases List.mem_append.mp hch with h | h
    · rcases List.mem_cons.mp h with h | h
      · exact Or.inr h
      · exact pairChunk_chars (htoks p (List.mem_cons_self p pt)) ch h
    · exact ih (fun q hq => htoks q (List.mem_cons_of_mem p hq)) ch h

theorem joinPairs_chars {ps : List (Str × Str)} (htoks : tokenPairs ps) :
    ∀ ch ∈ joinPairs ps, isAlnum ch = true ∨ ch = ' ' := by
  intro ch hch
  cases ps with
  | nil => simp [joinPairs] at hch
  | cons p pt =>
    rcases List.mem_append.mp hch with h | h
    · exact pairChunk_chars (htoks p (List.mem_cons_self p pt)) ch h
    · exact sepTail_chars (fun q hq => htoks q (List.mem_cons_of_mem p hq)) ch h

/-- Every character of a line that matches a grammar form is alphanumeric
or a space. -/
theorem specForm_chars {l : Str} {c : Command} (h : SpecForm l c) :
    ∀ ch ∈ l, isAlnum ch = true ∨ ch = ' ' := by
  cases h with
  | get kw k hkw hk =>
    intro ch hch
    rcases List.mem_append.mp hch with h | h
    · exact Or.inl (kwMatch_chars hkw (by decide) ch h)
    · rcases List.mem_cons.mp h with h | h
      · exact Or.inr h
      · exact Or.inl (hk.2 ch h)
  | set kw k v hkw hk hv =>
    intro ch hch
    rcases List.mem_append.mp hch with h | h
    · exact Or.inl (kwMatch_chars hkw (by decide) ch h)
    · rcases List.mem_cons.mp h with h | h
      · exact Or.inr h
      · rcases List.mem_append.mp h with h | h
        · exact Or.inl (hk.2 ch h)
        · rcases List.mem_cons.mp h with h | h
          · exact Or.inr h
          · exact Or.inl (hv.2 ch h)
  | mset kw ps hkw hne htoks =>
    intro ch hch
    rcases List.mem_append.mp hch with h | h
    · exact Or.inl (kwMatch_chars hkw (by decide) ch h)
    · rcases List.mem_cons.mp h with h | h
      · exact Or.inr h
      · exact joinPairs_chars htoks ch h
  | increment kw k hkw hk =>
    intro ch hch
    rcases List.mem_append.mp hch with h | h
    · exact Or.inl (kwMatch_chars hkw (by decide) ch h)
    · rcases List.mem_cons.mp h with h | h
      · exact Or.inr h
      · exact Or.inl (hk.2 ch h)
  | list kw hkw => exact fun ch hch => Or.inl (kwMatch_chars hkw (by decide) ch hch)
  | exit kw hkw => exact fun ch hch => Or.inl (kwMatch_chars hkw (by decide) ch hch)

/-- A line that matches a grammar form contains a space or is a case
variant of `list` or of `exit`. -/
theorem specForm_space_or_kw {l : Str} {c : Command} (h : SpecForm l c) :
    ' ' ∈ l ∨ kwMatch l listLit ∨ kwMatch l exitLit := by
  cases h with
  | get kw k hkw hk => left; simp
  | set kw k v hkw hk hv => left; simp
  | mset kw ps hkw hne htoks => left; simp
  | increment kw k hkw hk => left; simp
  | list kw hkw => exact Or.inr (Or.inl hkw)
  | exit kw hkw => exact Or.inr (Or.inr hkw)

/-- `parse_mset` on a line whose arguments are complete pairs followed by a
single trailing token: the final separator-plus-token iteration backtracks,
so the pairs parse and the odd token remains unconsumed. -/
theorem parse_mset_form_odd {kw : Str} {ps : List (Str × Str)} {tok : Str}
    (hkw : kwMatch kw msetLit) (hne : ps ≠ []) (htoks : tokenPairs ps)
    (htok : isToken tok) :
    parse_mset (kw ++ ' ' :: (joinPairs ps ++ ' ' :: tok)) =
      some (' ' :: tok, Command.MSet (ps.map (fun p => ⟨p.1, p.2⟩))) := by
  obtain ⟨p, pt, rfl⟩ : ∃ p pt, ps = p :: pt := by
    cases ps with
    | nil => exact absurd rfl hne
    | cons p pt => exact ⟨p, pt, rfl⟩
  have h1 := tagNoCase_kw hkw (by decide) (p.1 ++ ' ' :: (p.2 ++ (sepTail pt ++ ' ' :: tok)))
  have hna : headNA (sepTail pt ++ ' ' :: tok) := by
    cases pt with
    | nil => simp [sepTail, headNA, isAlnum]
    | cons q qt => simp [sepTail, headNA, isAlnum]
  have hp := htoks p (List.mem_cons_self p pt)
  have hpair : sepPair (p.1 ++ ' ' :: (p.2 ++ (sepTail pt ++ ' ' :: tok))) =
      some (sepTail pt ++ ' ' :: tok, (p.1, p.2)) := sepPair_token hp.1 hp.2 hna
  have hloop := sepListLoop_tail_odd pt (sepTail pt ++ ' ' :: tok).length tok
    (by simp; omega) (fun q hq => htoks q (List.mem_cons_of_mem p hq)) htok
  simp only [List.length_append, List.length_cons] at hloop
  simp [parse_mset, joinPairs, pairChunk, h1, hpair, hloop]

/-! ## Integer helper lemmas -/

theorem rangeCheck_some {j i : Int} (h : rangeCheck j = some i) :
    minIsize ≤ i ∧ i ≤ maxIsize ∧ j = i := by
  unfold rangeCheck at h
  split at h
  · next hc =>
    have hji : j = i := by injection h
    subst hji
    exact ⟨hc.1, hc.2, rfl⟩
  · exact absurd h (by simp)

theorem parseIsize_range {s : Str} {i : Int} (h : parseIsize s = some i) :
    minIsize ≤ i ∧ i ≤ maxIsize := by
  unfold parseIsize at h
  cases s with
  | nil => exact absurd h (by simp)
  | cons c rest =>
    simp only at h
    split at h
    · cases hd : parseNatDigits rest with
      | none => rw [hd] at h; exact absurd h (by simp)
      | some n =>
        rw [hd] at h
        have := rangeCheck_some h
        exact ⟨this.1, this.2.1⟩
    · split at h
      · cases hd : parseNatDigits rest with
        | none => rw [hd] at h; exact absurd h (by simp)
        | some n =>
          rw [hd] at h
          have := rangeCheck_some h
          exact ⟨this.1, this.2.1⟩
      · cases hd : parseNatDigits (c :: rest) with
        | none => rw [hd] at h; exact absurd h (by simp)
        | some n =>
          rw [hd] at h
          have := rangeCheck_some h
          exact ⟨this.1, this.2.1⟩

theorem wrap64_id {i : Int} (h1 : minIsize ≤ i) (h2 : i ≤ maxIsize) : wrap64 i = i := by
  unfold minIsize at h1
  unfold maxIsize at h2
  unfold wrap64
  rw [Int.emod_eq_of_lt (by omega) (by omega)]
  omega

/-! ## Claim theorems -/

/-- C1 (counterexample): the line `listX` matches none of the six grammar
forms of §4.1, yet `parse_command` does not return `None` on it — it parses
as `List` because `tag_no_case("list")` matches a prefix and the remainder
is discarded. -/
theorem c1_grammar_counterexample :
    matchesNoForm lineListX ∧ parse_command lineListX = some Command.List := by
  constructor
  · intro c h
    rcases specForm_space_or_kw h with h1 | h2 | h3
    · revert h1; decide
    · revert h2; decide
    · revert h3; decide
  · decide

/-- C1 (amended): every line that matches one of the six grammar forms —
keyword case-insensitive, argument tokens case-sensitive — parses to the
corresponding `Command` variant, the six sub-parsers being tried in the
source order get, set, mset, incr, list, exit with the first match winning;
but a line matching no complete form need not return `None`, because the
unconsumed remainder is discarded (see the counterexample). -/
theorem c1_grammar_forms (l : Str) (c : Command) (hf : SpecForm l c) :
    parse_command l = some c := by
  have h : parse_command (l ++ []) = some c := parse_command_form_rest hf trivial
  simpa using h

theorem c1_grammar_forms_witness : parse_command lineGetK = some (Command.Get ['k']) :=
  c1_grammar_forms lineGetK (Command.Get ['k'])
    (SpecForm.get getLit ['k'] (by decide) (by decide))

/-- C2 (counterexample): the buffer `get key\n` — a recognized form followed
by the line terminator, which the caller does *not* strip — matches no
complete grammar form, yet it parses: the trailing character does not make
the line fail. -/
theorem c2_whole_line_counterexample :
    matchesNoForm lineGetKeyNL ∧
      parse_command lineGetKeyNL = some (Command.Get ['k', 'e', 'y']) := by
  constructor
  · intro c h
    rcases specForm_chars h '\n' (by decide) with h1 | h2
    · revert h1; decide
    · revert h2; decide
  · decide

/-- C2 (amended): `parse_command` does not require the whole line to be
consumed.  A line that begins with a complete grammar form parses to that
form's command with any remaining content ignored, provided the remainder
starts at a hard token boundary (for instance the `\n` terminator left in
the buffer by `read_line`); leading whitespace does still make the whole
line fail, since every sub-parser requires its keyword first. -/
theorem c2_trailing_ignored :
    (∀ (l : Str) (c : Command) (rest : Str), SpecForm l c → headSafe rest →
      parse_command (l ++ rest) = some c) ∧
    (∀ s : Str, parse_command (' ' :: s) = none) :=
  ⟨fun _ _ _ hf hr => parse_command_form_rest hf hr, parse_command_space⟩

theorem c2_trailing_ignored_witness :
    parse_command (lineGetK ++ ['\n']) = some (Command.Get ['k']) ∧
      parse_command (' ' :: lineGetK) = none :=
  ⟨c2_trailing_ignored.1 lineGetK (Command.Get ['k']) ['\n']
      (SpecForm.get getLit ['k'] (by decide) (by decide)) (by decide),
    c2_trailing_ignored.2 lineGetK⟩

/-- C3 (code evaluated at the failing input): a zero-byte read leaves the
buffer empty; `handle_client` does not test for it, parses the empty buffer,
fails, and replies `INV` while staying in the loop — it does not transition
to `Closed`, contradicting the required end-of-stream handling (the spec
itself records this reference behavior as a defect to eliminate). -/
theorem c3_empty_read_replies_inv (cask : BitCask) :
    handleLine cask [] = some ⟨cask, [strINV], false⟩ := rfl

/-- C4 (code evaluated at the failing input): the dispatch `match` of
`handle_client` has no arm for `MSet`, so a parsed `mset a 1` line produces
zero reply lines — the command is silently dropped, contradicting
one-reply-per-line (the spec itself records the missing arm as a latent
defect). -/
theorem c4_mset_no_reply (cask : BitCask) :
    handleLine cask lineMsetPair = some ⟨cask, [], false⟩ := rfl

/-- C5 (counterexample): with `isize::MAX` stored under `k`, `incr k`
parses the old value successfully, but the reply is not the decimal string
of `old + 1`: the 64-bit addition wraps (a debug build would instead abort
the session thread — under neither build is `old + 1` sent). -/
theorem c5_overflow_counterexample :
    (dispatch maxCask (Command.Increment ['k'])).map StepResult.out =
        some [intToStr minIsize] ∧
      intToStr minIsize ≠ intToStr (maxIsize + 1) := by
  constructor
  · decide
  · decide

/-- C5 (amended): `Increment` treats an absent key as `"0"` — in particular
it replies `1` and stores `1` on an absent key; when the stored value parses
as a 64-bit signed integer other than `isize::MAX` and the store write
succeeds, the store is updated to and the reply is the decimal string of
`old + 1`; when the stored value does not parse as an `isize`, the reply is
the `ERR` sentinel.  (At `old = isize::MAX` the addition overflows — see the
counterexample; a failing store write aborts the session instead, see the
error-path claim.) -/
theorem c5_increment_semantics :
    (∀ (cask : BitCask) (k : Str) (old : Int),
      parseIsize ((bcGet cask k).getD strZero) = some old → old ≠ maxIsize →
      cask.putFail k (intToStr (old + 1)) = false →
      dispatch cask (Command.Increment k) =
        some ⟨{ cask with data := mapPut k (intToStr (old + 1)) cask.data },
              [intToStr (old + 1)], false⟩) ∧
    (∀ (cask : BitCask) (k : Str), bcGet cask k = none →
      cask.putFail k (intToStr 1) = false →
      dispatch cask (Command.Increment k) =
        some ⟨{ cask with data := mapPut k (intToStr 1) cask.data },
              [intToStr 1], false⟩) ∧
    (∀ (cask : BitCask) (k : Str),
      parseIsize ((bcGet cask k).getD strZero) = none →
      dispatch cask (Command.Increment k) = some ⟨cask, [strERR], false⟩) := by
  refine ⟨?_, ?_, ?_⟩
  · intro cask k old hparse hmax hput
    have hr := parseIsize_range hparse
    have hw : wrap64 (old + 1) = old + 1 := by
      apply wrap64_id
      · unfold minIsize at hr ⊢; omega
      · unfold maxIsize at hr hmax ⊢; omega
    simp [dispatch, hparse, hw, bcPut, hput]
  · intro cask k hget hput
    have hparse : parseIsize ((bcGet cask k).getD strZero) = some 0 := by
      rw [hget]; decide
    have hw : wrap64 1 = 1 := by decide
    simp [dispatch, hparse, hw, bcPut, hput]
  · intro cask k hparse
    simp [dispatch, hparse]

theorem c5_increment_semantics_witness :
    dispatch okCask (Command.Increment ['k']) =
      some ⟨{ okCask with data := mapPut ['k'] (intToStr 1) okCask.data },
            [intToStr 1], false⟩ :=
  c5_increment_semantics.2.1 okCask ['k'] rfl rfl

/-- C6 (counterexample): the line `mset a b c` has an odd argument token
count, yet it does not fail to parse: `separated_list1` backtracks before
the dangling token and `parse_command` discards the remainder, yielding the
single pair and silently dropping `c`. -/
theorem c6_mset_odd_counterexample :
    parse_command lineMsetOdd = some (Command.MSet [⟨['a'], ['b']⟩]) := by decide

/-- C6 (amended): an `mset` line whose arguments are one or more well-formed
`key value` pairs parses to `MSet` of those pairs, and a trailing odd token
is ignored rather than making the line fail; zero pairs does fail (`mset`
and `mset ` parse as no command). -/
theorem c6_mset_arguments :
    (∀ (kw : Str) (ps : List (Str × Str)) (tok : Str),
      kwMatch kw msetLit → ps ≠ [] → tokenPairs ps → isToken tok →
      parse_command (kw ++ ' ' :: (joinPairs ps ++ ' ' :: tok)) =
        some (Command.MSet (ps.map (fun p => ⟨p.1, p.2⟩)))) ∧
    parse_command ['m', 's', 'e', 't'] = none ∧
    parse_command ['m', 's', 'e', 't', ' '] = none := by
  refine ⟨?_, by decide, by decide⟩
  intro kw ps tok hkw hne htoks htok
  obtain ⟨c0, kt, rfl, hc0, _⟩ := kwMatch_cons hkw
  have hg : ∀ s, parse_get (c0 :: s) = none :=
    fun s => parse_get_ne c0 s (by rw [hc0]; decide)
  have hs : ∀ s, parse_set (c0 :: s) = none :=
    fun s => parse_set_ne c0 s (by rw [hc0]; decide)
  have hmset := parse_mset_form_odd hkw hne htoks htok
  simp only [List.append_assoc, List.cons_append] at hmset ⊢
  simp [parse_command, altCommand, hg, hs, hmset]

theorem c6_mset_arguments_witness :
    parse_command (msetLit ++ ' ' :: (joinPairs [(['a'], ['b'])] ++ ' ' :: ['c'])) =
      some (Command.MSet [⟨['a'], ['b']⟩]) := by
  have h := c6_mset_arguments.1 msetLit [(['a'], ['b'])] ['c']
    (by decide) (by decide) (by decide) (by decide)
  simpa using h

/-- C7 (counterexample): when the collaborator fails the write of an
`Increment`, the session does not reply `ERR`: the `put` result is
`.unwrap()`ed, so the session thread panics — modelled as `none`, no reply
written, session gone. -/
theorem c7_increment_put_fail_counterexample :
    dispatch failCask (Command.Increment ['k']) = none := rfl

/-- C7 (amended): a failed `Set` write is reported as `ERR` and the session
continues with the store unchanged; but a failed write inside `Increment`
is `.unwrap()`ed and panics the session thread instead of replying `ERR`. -/
theorem c7_put_failure_paths :
    (∀ (cask : BitCask) (k v : Str), cask.putFail k v = true →
      dispatch cask (Command.Set ⟨k, v⟩) = some ⟨cask, [strERR], false⟩) ∧
    (∀ (cask : BitCask) (k : Str) (old : Int),
      parseIsize ((bcGet cask k).getD strZero) = some old →
      cask.putFail k (intToStr (wrap64 (old + 1))) = true →
      dispatch cask (Command.Increment k) = none) := by
  constructor
  · intro cask k v hfail
    simp [dispatch, bcPut, hfail]
  · intro cask k old hparse hfail
    simp [dispatch, hparse, bcPut, hfail]

theorem c7_put_failure_paths_witness :
    dispatch failCask (Command.Set ⟨['a'], ['b']⟩) = some ⟨failCask, [strERR], false⟩ ∧
      dispatch failCask (Command.Increment ['a']) = none :=
  ⟨c7_put_failure_paths.1 failCask ['a'] ['b'] rfl,
    c7_put_failure_paths.2 failCask ['a'] 0 (by decide) rfl⟩

/-- C8: a line on which `parse_command` returns `None` draws exactly the
`INV` reply; the session stays active (the loop is not broken) and the store
is untouched. -/
theorem c8_invalid_line (cask : BitCask) (line : Str)
    (h : parse_command line = none) :
    handleLine cask line = some ⟨cask, [strINV], false⟩ := by
  simp [handleLine, h]

theorem c8_invalid_line_witness :
    handleLine okCask lineBlah = some ⟨okCask, [strINV], false⟩ :=
  c8_invalid_line okCask lineBlah (by decide)

/-- C10: dispatching `Get`, `List` or `Exit` never writes to the store: the
resulting store is the very store that was passed in (and the dispatch
never panics on these variants). -/
theorem c10_read_only_commands (cask : BitCask) (c : Command)
    (h : c = Command.List ∨ c = Command.Exit ∨ ∃ k, c = Command.Get k) :
    ∃ out closed, dispatch cask c = some ⟨cask, out, closed⟩ := by
  rcases h with rfl | rfl | ⟨k, rfl⟩
  · exact ⟨[joinSpace (list_keys cask)], false, rfl⟩
  · exact ⟨[strBYE], true, rfl⟩
  · cases hg : bcGet cask k with
    | some v => exact ⟨[v], false, by simp [dispatch, hg]⟩
    | none => exact ⟨[strNIL], false, by simp [dispatch, hg]⟩

theorem c10_read_only_commands_witness :
    ∃ out closed, dispatch okCask Command.List = some ⟨okCask, out, closed⟩ :=
  c10_read_only_commands okCask Command.List (Or.inl rfl)

/-! ## Decimal printing parses back (needed for chained increments) -/

theorem digitChar_isDigit {d : Nat} (h : d < 10) : isDigit (digitChar d) = true := by
  interval_cases d <;> decide

theorem digitToNat_digitChar {d : Nat} (h : d < 10) : digitToNat (digitChar d) = d := by
  interval_cases d <;> decide

theorem digitsVal_append_one (l : Str) (c : Char) :
    digitsVal (l ++ [c]) = 10 * digitsVal l + digitToNat c := by
  simp [digitsVal, List.foldl_append]

theorem natToCharsAux_spec :
    ∀ (f n : Nat), n < 10 ^ (f + 1) →
      natToCharsAux (f + 1) n ≠ [] ∧ (∀ c ∈ natToCharsAux (f + 1) n, isDigit c = true) ∧
        digitsVal (natToCharsAux (f + 1) n) = n := by
  intro f
  induction f with
  | zero =>
    intro n hn
    have h10 : n < 10 := by simpa using hn
    refine ⟨by simp [natToCharsAux, h10], ?_, ?_⟩
    · intro c hc
      simp [natToCharsAux, h10] at hc
      subst hc
      exact digitChar_isDigit h10
    · simp [natToCharsAux, h10, digitsVal, digitToNat_digitChar h10]
  | succ f ih =>
    intro n hn
    by_cases h10 : n < 10
    · refine ⟨by simp [natToCharsAux, h10], ?_, ?_⟩
      · intro c hc
        simp [natToCharsAux, h10] at hc
        subst hc
        exact digitChar_isDigit h10
      · simp [natToCharsAux, h10, digitsVal, digitToNat_digitChar h10]
    · have hdiv : n / 10 < 10 ^ (f + 1) := by
        rw [Nat.div_lt_iff_lt_mul (by norm_num)]
        calc n < 10 ^ (f + 1 + 1) := hn
          _ = 10 ^ (f + 1) * 10 := by ring
      obtain ⟨hne, hdig, hval⟩ := ih (n / 10) hdiv
      have hmod : n % 10 < 10 := Nat.mod_lt _ (by norm_num)
      have hunf : natToCharsAux (f + 1 + 1) n =
          natToCharsAux (f + 1) (n / 10) ++ [digitChar (n % 10)] := by
        simp [natToCharsAux, h10]
      refine ⟨by simp [hunf], ?_, ?_⟩
      · intro c hc
        rw [hunf] at hc
        rcases List.mem_append.mp hc with h | h
        · exact hdig c h
        · simp at h
          subst h
          exact digitChar_isDigit hmod
      · rw [hunf, digitsVal_append_one, hval, digitToNat_digitChar hmod]
        omega

theorem parseNatDigits_natToChars {n : Nat} (hn : n < 10 ^ 20) :
    parseNatDigits (natToCharsAux 20 n) = some n := by
  obtain ⟨hne, hdig, hval⟩ := natToCharsAux_spec 19 n hn
  unfold parseNatDigits
  rw [if_pos ⟨hne, hdig⟩, hval]

theorem isDigit_ne_sign {c : Char} (h : isDigit c = true) : c ≠ '+' ∧ c ≠ '-' := by
  constructor <;> (intro hc; subst hc; revert h; decide)

theorem parseIsize_natToChars {n : Nat} (hn : (n : Int) ≤ maxIsize) :
    parseIsize (natToCharsAux 20 n) = some (n : Int) := by
  have hnn : n ≤ 9223372036854775807 := by
    unfold maxIsize at hn
    exact_mod_cast hn
  have hp : (10 : Nat) ^ 20 = 100000000000000000000 := by norm_num
  have hn20 : n < 10 ^ 20 := by omega
  obtain ⟨hne, hdig, hval⟩ := natToCharsAux_spec 19 n hn20
  cases hs : natToCharsAux 20 n with
  | nil => exact absurd hs hne
  | cons c rest =>
    have hc : isDigit c = true := hdig c (by rw [hs]; exact List.mem_cons_self c rest)
    have hsign := isDigit_ne_sign hc
    have hpd : parseNatDigits (c :: rest) = some n := by
      rw [← hs]
      exact parseNatDigits_natToChars hn20
    have hrc : rangeCheck (n : Int) = some (n : Int) := by
      unfold rangeCheck
      rw [if_pos ⟨by unfold minIsize; omega, hn⟩]
    simp [parseIsize, hsign.1, hsign.2, hpd, hrc]

theorem parseIsize_intToStr_nat {n : Nat} (hn : (n : Int) ≤ maxIsize) :
    parseIsize (intToStr (n : Int)) = some (n : Int) := by
  unfold intToStr
  rw [if_neg (by omega : ¬ (n : Int) < 0)]
  rw [Int.toNat_natCast]
  exact parseIsize_natToChars hn

/-! ## Counting completed writes -/

theorem countWrote_update_same {n : Nat} (ts : Fin n → IncThread) (i : Fin n)
    (v : IncThread) (h : isWrOrDone v = isWrOrDone (ts i)) :
    countWrote (Function.update ts i v) = countWrote ts := by
  unfold countWrote
  congr 1
  ext j
  simp only [Finset.mem_filter, Finset.mem_univ, true_and]
  by_cases hj : j = i
  · subst hj
    rw [Function.update_same, h]
  · rw [Function.update_noteq hj]

theorem countWrote_update_succ {n : Nat} (ts : Fin n → IncThread) (i : Fin n)
    (v : IncThread) (hv : isWrOrDone v = true) (hi : isWrOrDone (ts i) = false) :
    countWrote (Function.update ts i v) = countWrote ts + 1 := by
  unfold countWrote
  have hset : Finset.univ.filter (fun j => isWrOrDone (Function.update ts i v j) = true) =
      insert i (Finset.univ.filter (fun j => isWrOrDone (ts j) = true)) := by
    ext j
    simp only [Finset.mem_filter, Finset.mem_univ, true_and, Finset.mem_insert]
    by_cases hj : j = i
    · subst hj
      simp [Function.update_same, hv]
    · simp [Function.update_noteq hj, hj]
  rw [hset, Finset.card_insert_of_not_mem (by simp [hi])]

theorem countWrote_lt {n : Nat} (ts : Fin n → IncThread) (i : Fin n)
    (hi : isWrOrDone (ts i) = false) : countWrote ts < n := by
  unfold countWrote
  have hmem : i ∉ Finset.univ.filter (fun j => isWrOrDone (ts j) = true) := by simp [hi]
  have hss : Finset.univ.filter (fun j => isWrOrDone (ts j) = true) ⊂ Finset.univ := by
    rw [Finset.ssubset_iff_subset_ne]
    refine ⟨Finset.filter_subset _ _, ?_⟩
    intro heq
    rw [heq] at hmem
    exact hmem (Finset.mem_univ i)
  have := Finset.card_lt_card hss
  simpa using this

theorem countWrote_le {n : Nat} (ts : Fin n → IncThread) : countWrote ts ≤ n := by
  unfold countWrote
  calc (Finset.univ.filter (fun j => isWrOrDone (ts j) = true)).card
      ≤ Finset.univ.card := Finset.card_filter_le _ _
    _ = n := by simp

/-- Under the invariant the cell (or its `"0"` default) parses back to the
number of completed writes. -/
theorem incInv_cell_parses {n : Nat} {c : CState n} (hn : (n : Int) ≤ maxIsize)
    (hcell : c.cell = if countWrote c.ts = 0 then none
      else some (intToStr (countWrote c.ts : Int))) :
    parseIsize (c.cell.getD strZero) = some (countWrote c.ts : Int) := by
  by_cases h0 : countWrote c.ts = 0
  · rw [hcell, if_pos h0, h0]
    decide
  · rw [hcell, if_neg h0]
    have hle : (countWrote c.ts : Int) ≤ maxIsize :=
      le_trans (by exact_mod_cast countWrote_le c.ts) hn
    simpa using parseIsize_intToStr_nat hle

/-! ## The invariant is inductive -/

theorem incInv_init (n : Nat) : IncInv (initC n) := by
  have hcnt : countWrote (fun _ : Fin n => IncThread.start) = 0 := by
    unfold countWrote
    simp [isWrOrDone]
  refine ⟨?_, ?_, ?_, ?_, ?_⟩
  · intro j hj
    exact absurd hj (by simp [initC, inCS])
  · intro j old hj
    exact absurd hj (by simp [initC])
  · simp [initC, hcnt]
  · simp [initC, hcnt]
  · intro j
    simp [initC]

theorem incInv_step {n : Nat} (hn : (n : Int) ≤ maxIsize) {c c' : CState n}
    (hstep : IncStep c c') (hinv : IncInv c) : IncInv c' := by
  obtain ⟨h1, h2, h3, h4, h5⟩ := hinv
  cases hstep with
  | acquire i hts hlock =>
    have hcnt : countWrote (Function.update c.ts i IncThread.locked) = countWrote c.ts :=
      countWrote_update_same c.ts i _ (by rw [hts]; rfl)
    refine ⟨?_, ?_, ?_, ?_, ?_⟩
    · intro j hj
      dsimp only at hj ⊢
      by_cases hji : j = i
      · subst hji; rfl
      · rw [Function.update_noteq hji] at hj
        have := h1 j hj
        rw [hlock] at this
        exact absurd this (by simp)
    · intro j old hj
      dsimp only at hj ⊢
      rw [hcnt]
      by_cases hji : j = i
      · subst hji
        rw [Function.update_same] at hj
        exact absurd hj (by simp)
      · rw [Function.update_noteq hji] at hj
        exact h2 j old hj
    · dsimp only
      rw [hcnt]
      exact h3
    · dsimp only
      rw [hcnt]
      exact h4
    · intro j
      dsimp only
      by_cases hji : j = i
      · subst hji
        rw [Function.update_same]
        simp
      · rw [Function.update_noteq hji]
        exact h5 j
  | read i old hts hparse =>
    have hcnt : countWrote (Function.update c.ts i (IncThread.got old)) = countWrote c.ts :=
      countWrote_update_same c.ts i _ (by rw [hts]; rfl)
    have hold : old = (countWrote c.ts : Int) := by
      have := incInv_cell_parses hn h4
      rw [hparse] at this
      injection this
    refine ⟨?_, ?_, ?_, ?_, ?_⟩
    · intro j hj
      dsimp only at hj ⊢
      by_cases hji : j = i
      · subst hji
        exact h1 j (by rw [hts]; trivial)
      · rw [Function.update_noteq hji] at hj
        exact h1 j hj
    · intro j o hj
      dsimp only at hj ⊢
      rw [hcnt]
      by_cases hji : j = i
      · subst hji
        rw [Function.update_same] at hj
        injection hj with ho
        rw [← ho]
        exact hold
      · rw [Function.update_noteq hji] at hj
        exact h2 j o hj
    · dsimp only
      rw [hcnt]
      exact h3
    · dsimp only
      rw [hcnt]
      exact h4
    · intro j
      dsimp only
      by_cases hji : j = i
      · subst hji
        rw [Function.update_same]
        simp
      · rw [Function.update_noteq hji]
        exact h5 j
  | readFail i hts hparse =>
    exfalso
    have := incInv_cell_parses hn h4
    rw [hparse] at this
    exact absurd this (by simp)
  | write i old hts =>
    have hold : old = (countWrote c.ts : Int) := h2 i old hts
    have hlt : countWrote c.ts < n := countWrote_lt c.ts i (by rw [hts]; rfl)
    have hcnt : countWrote (Function.update c.ts i IncThread.wrote) = countWrote c.ts + 1 :=
      countWrote_update_succ c.ts i _ rfl (by rw [hts]; rfl)
    have hw : wrap64 (old + 1) = old + 1 := by
      apply wrap64_id
      · unfold minIsize
        omega
      · have : (countWrote c.ts : Int) + 1 ≤ (n : Int) := by exact_mod_cast hlt
        omega
    refine ⟨?_, ?_, ?_, ?_, ?_⟩
    · intro j hj
      dsimp only at hj ⊢
      by_cases hji : j = i
      · subst hji
        exact h1 j (by rw [hts]; trivial)
      · rw [Function.update_noteq hji] at hj
        exact h1 j hj
    · intro j o hj
      dsimp only at hj ⊢
      by_cases hji : j = i
      · subst hji
        rw [Function.update_same] at hj
        exact absurd hj (by simp)
      · rw [Function.update_noteq hji] at hj
        have hli := h1 i (by rw [hts]; trivial)
        have hlj := h1 j (by rw [hj]; trivial)
        rw [hli] at hlj
        injection hlj with hij
        exact absurd hij.symm hji
    · dsimp only
      rw [hcnt, h3, hw, hold, List.range_succ]
      simp
    · dsimp only
      rw [hcnt, hw, hold]
      have : countWrote c.ts + 1 ≠ 0 := by omega
      rw [if_neg this]
      push_cast
      ring_nf
    · intro j
      dsimp only
      by_cases hji : j = i
      · subst hji
        rw [Function.update_same]
        simp
      · rw [Function.update_noteq hji]
        exact h5 j
  | release i hor =>
    have hwr : c.ts i = IncThread.wrote := by
      rcases hor with h | h
      · exact h
      · exact absurd h (h5 i)
    have hcnt : countWrote (Function.update c.ts i IncThread.done) = countWrote c.ts :=
      countWrote_update_same c.ts i _ (by rw [hwr]; rfl)
    refine ⟨?_, ?_, ?_, ?_, ?_⟩
    · intro j hj
      dsimp only at hj ⊢
      by_cases hji : j = i
      · subst hji
        rw [Function.update_same] at hj
        exact absurd hj (by simp [inCS])
      · rw [Function.update_noteq hji] at hj
        have hli := h1 i (by rw [hwr]; trivial)
        have hlj := h1 j hj
        rw [hli] at hlj
        injection hlj with hij
        exact absurd hij.symm hji
    · intro j o hj
      dsimp only at hj ⊢
      rw [hcnt]
      by_cases hji : j = i
      · subst hji
        rw [Function.update_same] at hj
        exact absurd hj (by simp)
      · rw [Function.update_noteq hji] at hj
        exact h2 j o hj
    · dsimp only
      rw [hcnt]
      exact h3
    · dsimp only
      rw [hcnt]
      exact h4
    · intro j
      dsimp only
      by_cases hji : j = i
      · subst hji
        rw [Function.update_same]
        simp
      · rw [Function.update_noteq hji]
        exact h5 j

theorem incInv_reach {n : Nat} (hn : (n : Int) ≤ maxIsize) {c : CState n}
    (h : Relation.ReflTransGen IncStep (initC n) c) : IncInv c := by
  induction h with
  | refl => exact incInv_init n
  | tail hsteps hstep ih => exact incInv_step hn hstep ih

/-- C9: the `Increment` arm holds the store guard across its whole
read-modify-write (the guard is taken before the `get` and lives past the
`put`), so increments serialize: in the interleaving semantics — where only
`acquire` ever inspects the lock — every complete execution of `n` sessions
incrementing one absent key writes exactly the replies `1, 2, …, n` in
completion order (no duplicates, no gaps, no lost updates) and leaves the
key at `n`.  (`n` within the `isize` range; beyond it the 64-bit counter
would wrap, see the overflow counterexample.) -/
theorem c9_increment_no_lost_updates (n : Nat) (c : CState n)
    (hn : (n : Int) ≤ maxIsize)
    (hreach : Relation.ReflTransGen IncStep (initC n) c)
    (hdone : ∀ i, c.ts i = IncThread.done) :
    c.log = (List.range n).map (fun j : Nat => intToStr ((j : Int) + 1)) ∧
    c.cell = (if n = 0 then none else some (intToStr (n : Int))) ∧
    c.log.Nodup := by
  obtain ⟨h1, h2, h3, h4, h5⟩ := incInv_reach hn hreach
  have hcnt : countWrote c.ts = n := by
    unfold countWrote
    have hall : Finset.univ.filter (fun j => isWrOrDone (c.ts j) = true) = Finset.univ := by
      apply Finset.filter_true_of_mem
      intro j _
      rw [hdone j]
      rfl
    rw [hall]
    simp
  refine ⟨by rw [h3, hcnt], by rw [h4, hcnt], ?_⟩
  rw [h3, hcnt]
  apply List.Nodup.map_on ?_ (List.nodup_range n)
  intro a ha b hb hfab
  rw [List.mem_range] at ha hb
  have hna : ((a + 1 : Nat) : Int) ≤ maxIsize := by
    have h : a + 1 ≤ n := ha
    calc ((a + 1 : Nat) : Int) ≤ (n : Int) := by exact_mod_cast h
      _ ≤ maxIsize := hn
  have hnb : ((b + 1 : Nat) : Int) ≤ maxIsize := by
    have h : b + 1 ≤ n := hb
    calc ((b + 1 : Nat) : Int) ≤ (n : Int) := by exact_mod_cast h
      _ ≤ maxIsize := hn
  have hpa := parseIsize_intToStr_nat hna
  have hpb := parseIsize_intToStr_nat hnb
  have hca : ((a + 1 : Nat) : Int) = (a : Int) + 1 := by push_cast; ring
  have hcb : ((b + 1 : Nat) : Int) = (b : Int) + 1 := by push_cast; ring
  rw [hca] at hpa
  rw [hcb] at hpb
  rw [hfab, hpb] at hpa
  injection hpa with h
  omega

theorem c9_increment_no_lost_updates_witness :
    cw4.log = (List.range 1).map (fun j : Nat => intToStr ((j : Int) + 1)) ∧
    cw4.cell = (if 1 = 0 then none else some (intToStr ((1 : Nat) : Int))) ∧
    cw4.log.Nodup := by
  have t1 : IncStep cw0 cw1 := IncStep.acquire cw0 0 rfl rfl
  have t2 : IncStep cw1 cw2 := IncStep.read cw1 0 0 rfl (by decide)
  have t3 : IncStep cw2 cw3 := IncStep.write cw2 0 0 rfl
  have t4 : IncStep cw3 cw4 := IncStep.release cw3 0 (Or.inl rfl)
  have htrace : Relation.ReflTransGen IncStep (initC 1) cw4 :=
    Relation.ReflTransGen.tail
      (Relation.ReflTransGen.tail
        (Relation.ReflTransGen.tail
          (Relation.ReflTransGen.tail Relation.ReflTransGen.refl t1) t2) t3) t4
  have hdone : ∀ i : Fin 1, cw4.ts i = IncThread.done := by
    intro i
    rw [Fin.eq_zero i]
    rfl
  exact c9_increment_no_lost_updates 1 cw4 (by decide) htrace hdone

end KnowSql
